import Mathlib

/-!
Verification of the sqlite-parser core (`src/parse_database.py`) against its
natural-language specification.  Python functions are shallowly embedded as
Lean functions over byte lists (`List Nat`, each byte `< 256`); the seekable
file is modelled by a byte list together with an explicit position, so a
reader returns the decoded value paired with the number of bytes consumed
(the file-position delta).  Fallible reads (Python exceptions) are modelled
with `Option`.
-/

set_option linter.unusedSectionVars false

namespace SqliteParser

/-- Embedding of `read_varint` (parse_database.py lines 15-27).  The loop
counter `i` is the number of bytes consumed so far; for `i < 8` the byte
contributes its low 7 bits (`val & ~0x80`), the ninth byte contributes all
8 bits; the loop stops when the continuation bit is clear or after 9 bytes.
Running off the end of the source (`file.read(1)[0]` on empty) is `none`. -/
def readVarintGo : List Nat → Nat → Nat → Option (Nat × Nat)
  | [], _, _ => none
  | v :: rest, acc, i =>
    if i = 8 then
      some (acc * 256 + v, 9)
    else
      let acc2 := acc * 128 + v % 128
      if v % 256 < 128 then some (acc2, i + 1)
      else readVarintGo rest acc2 (i + 1)

/-- Embedding of `read_varint` on a byte source: returns the decoded integer
and the number of bytes consumed, or `none` when the source ends first. -/
def read_varint (l : List Nat) : Option (Nat × Nat) :=
  readVarintGo l 0 0

theorem readVarintGo_bound (l : List Nat) :
    ∀ acc i v n, (∀ b ∈ l, b < 256) → acc < 2 ^ (7 * i) → i ≤ 8 →
      readVarintGo l acc i = some (v, n) → v < 2 ^ 64 ∧ n ≤ 9 := by
  induction l with
  | nil => intro acc i v n _ _ _ h; simp [readVarintGo] at h
  | cons b rest ih =>
    intro acc i v n hb hacc hi h
    have hb256 : b < 256 := hb b (List.mem_cons_self b rest)
    by_cases h8 : i = 8
    · subst h8
      simp only [readVarintGo, if_pos rfl] at h
      have hv : v = acc * 256 + b := ((Prod.mk.injEq _ _ _ _).mp (Option.some.inj h)).1.symm
      have hn : n = 9 := ((Prod.mk.injEq _ _ _ _).mp (Option.some.inj h)).2.symm
      subst hv; subst hn
      constructor
      · have : acc ≤ 2 ^ 56 - 1 := by
          have : (7 : Nat) * 8 = 56 := by norm_num
          omega
        calc acc * 256 + b ≤ (2 ^ 56 - 1) * 256 + 255 := by omega
          _ < 2 ^ 64 := by norm_num
      · exact le_refl 9
    · have hi7 : i < 8 := lt_of_le_of_ne hi h8
      simp only [readVarintGo, if_neg h8] at h
      have hacc2 : acc * 128 + b % 128 < 2 ^ (7 * (i + 1)) := by
        have h1 : b % 128 < 128 := Nat.mod_lt _ (by norm_num)
        have h2 : 2 ^ (7 * (i + 1)) = 2 ^ (7 * i) * 128 := by
          rw [Nat.mul_add, pow_add]; norm_num
        calc acc * 128 + b % 128 < acc * 128 + 128 := by omega
          _ = (acc + 1) * 128 := by ring
          _ ≤ 2 ^ (7 * i) * 128 := by
              exact Nat.mul_le_mul_right _ (by omega)
          _ = 2 ^ (7 * (i + 1)) := h2.symm
      by_cases hcont : b % 256 < 128
      · rw [if_pos hcont] at h
        have hv : v = acc * 128 + b % 128 :=
          ((Prod.mk.injEq _ _ _ _).mp (Option.some.inj h)).1.symm
        have hn : n = i + 1 := ((Prod.mk.injEq _ _ _ _).mp (Option.some.inj h)).2.symm
        subst hv; subst hn
        constructor
        · calc acc * 128 + b % 128 < 2 ^ (7 * (i + 1)) := hacc2
            _ ≤ 2 ^ 56 := Nat.pow_le_pow_right (by norm_num) (by omega)
            _ < 2 ^ 64 := by norm_num
        · omega
      · rw [if_neg hcont] at h
        exact ih _ _ _ _ (fun x hx => hb x (List.mem_cons_of_mem _ hx)) hacc2
          (by omega) h

/-- C10: `read_varint` consumes at most 9 bytes and always yields a value
below `2^64`; the maximal nine-byte input (nine `0xFF` bytes) decodes to
exactly `2^64 - 1` consuming 9 bytes. -/
theorem read_varint_within_u64 (l : List Nat) (hl : ∀ b ∈ l, b < 256) :
    (∀ v n, read_varint l = some (v, n) → v < 2 ^ 64 ∧ n ≤ 9) ∧
      read_varint (List.replicate 9 255) = some (2 ^ 64 - 1, 9) := by
  constructor
  · intro v n h
    exact readVarintGo_bound l 0 0 v n hl (by norm_num) (by norm_num) h
  · rfl

/-- C10 witness: the bound instantiated at the concrete source `[0x80, 0x05]`. -/
theorem read_varint_within_u64_witness :
    (∀ v n, read_varint [128, 5] = some (v, n) → v < 2 ^ 64 ∧ n ≤ 9) ∧
      read_varint (List.replicate 9 255) = some (2 ^ 64 - 1, 9) :=
  read_varint_within_u64 [128, 5] (by decide)

theorem readVarintGo_none_of_all_cont (l : List Nat) :
    ∀ acc i, i + l.length < 9 → (∀ b ∈ l, 128 ≤ b ∧ b < 256) →
      readVarintGo l acc i = none := by
  induction l with
  | nil => intro acc i _ _; rfl
  | cons b rest ih =>
    intro acc i hlen hb
    have hbb := hb b (List.mem_cons_self b rest)
    have h8 : i ≠ 8 := by simp at hlen; omega
    have hcont : ¬ b % 256 < 128 := by
      rw [Nat.mod_eq_of_lt hbb.2]; omega
    simp only [readVarintGo, if_neg h8, if_neg hcont]
    exact ih _ _ (by simp at hlen ⊢; omega) (fun x hx => hb x (List.mem_cons_of_mem _ hx))

/-- C4: `read_varint` yields the decoded integer together with the number of
bytes consumed; when the source ends before the varint terminates (all bytes
carry the continuation bit and fewer than nine are available) it fails;
`0x81 0x81 0x01` decodes to `(0b100000010000001, 3)` and the nine bytes
`0x81 ×8, 0x01` decode to `(0x0204081020408101, 9)`. -/
theorem read_varint_contract (l : List Nat) (hlen : l.length < 9)
    (hcont : ∀ b ∈ l, 128 ≤ b ∧ b < 256) :
    read_varint l = none ∧
      read_varint [0x81, 0x81, 0x01] = some (0b100000010000001, 3) ∧
      read_varint (List.replicate 8 0x81 ++ [0x01]) = some (0x0204081020408101, 9) := by
  refine ⟨?_, rfl, rfl⟩
  exact readVarintGo_none_of_all_cont l 0 0 (by omega) hcont

/-- C4 witness: the contract instantiated at the truncated source `[0x81]`. -/
theorem read_varint_contract_witness :
    read_varint [0x81] = none ∧
      read_varint [0x81, 0x81, 0x01] = some (0b100000010000001, 3) ∧
      read_varint (List.replicate 8 0x81 ++ [0x01]) = some (0x0204081020408101, 9) :=
  read_varint_contract [0x81] (by decide) (by decide)

/-- Big-endian base-128 digits of a natural number (most significant first,
at least one digit, no leading zero digit except for zero itself). -/
def b128 (x : Nat) : List Nat :=
  if x < 128 then [x] else b128 (x / 128) ++ [x % 128]
termination_by x
decreasing_by
  exact Nat.div_lt_self (by omega) (by norm_num)

/-- Set the continuation bit on every byte except the last one. -/
def markCont : List Nat → List Nat
  | [] => []
  | [a] => [a]
  | a :: b :: rest => (a + 128) :: markCont (b :: rest)

/-- Fixed-width big-endian base-128 digits (exactly `n` digits). -/
def fixDigits : Nat → Nat → List Nat
  | 0, _ => []
  | n + 1, y => fixDigits n (y / 128) ++ [y % 128]

/-- Modelled from the spec: the SQLite varint encoder (the repository only
decodes).  Values below `2^56` take 1-8 bytes of 7 bits each, big-endian,
continuation bit on all but the last; larger values take 9 bytes, the first
eight holding `x >> 8` in base 128 with continuation bits set and the ninth
holding the low 8 bits of `x`. -/
def encodeVarint (x : Nat) : List Nat :=
  if x < 2 ^ 56 then markCont (b128 x)
  else ((fixDigits 8 (x / 256)).map (fun b => b + 128)) ++ [x % 256]

theorem b128_digits_lt (x : Nat) : ∀ b ∈ b128 x, b < 128 := by
  induction x using Nat.strong_induction_on with
  | _ x ih =>
    intro b hb
    by_cases h : x < 128
    · rw [b128, if_pos h] at hb
      simp at hb; omega
    · rw [b128, if_neg h] at hb
      rcases List.mem_append.mp hb with h1 | h1
      · exact ih (x / 128) (Nat.div_lt_self (by omega) (by norm_num)) b h1
      · simp at h1; subst h1; exact Nat.mod_lt _ (by norm_num)

theorem b128_ne_nil (x : Nat) : b128 x ≠ [] := by
  by_cases h : x < 128
  · rw [b128, if_pos h]; simp
  · rw [b128, if_neg h]; simp

theorem b128_foldl (x : Nat) : ∀ acc,
    List.foldl (fun a b => a * 128 + b) acc (b128 x) =
      acc * 128 ^ (b128 x).length + x := by
  induction x using Nat.strong_induction_on with
  | _ x ih =>
    intro acc
    by_cases h : x < 128
    · rw [b128, if_pos h]; simp
    · rw [b128, if_neg h]
      rw [List.foldl_append, List.length_append]
      rw [ih (x / 128) (Nat.div_lt_self (by omega) (by norm_num)) acc]
      simp only [List.foldl_cons, List.foldl_nil, List.length_singleton]
      calc (acc * 128 ^ (b128 (x / 128)).length + x / 128) * 128 + x % 128
          = acc * (128 ^ (b128 (x / 128)).length * 128) + (x / 128 * 128 + x % 128) := by
            ring
        _ = acc * 128 ^ ((b128 (x / 128)).length + 1) + x := by
            rw [Nat.div_add_mod', ← pow_succ]

theorem b128_length_le (n x : Nat) (hx : x < 128 ^ n) (hn : 1 ≤ n) :
    (b128 x).length ≤ n := by
  induction x using Nat.strong_induction_on generalizing n with
  | _ x ih =>
    by_cases h : x < 128
    · rw [b128, if_pos h]; simpa using hn
    · rw [b128, if_neg h]
      have hn2 : 2 ≤ n := by
        by_contra hc
        interval_cases n
        · simp at hx; omega
      have hdiv : x / 128 < 128 ^ (n - 1) := by
        apply Nat.div_lt_of_lt_mul
        calc x < 128 ^ n := hx
          _ = 128 * 128 ^ (n - 1) := by
            rw [← pow_succ']
            congr 1; omega
      have := ih (x / 128) (Nat.div_lt_self (by omega) (by norm_num)) (n - 1) hdiv (by omega)
      simp; omega

theorem markCont_length : ∀ l : List Nat, (markCont l).length = l.length
  | [] => rfl
  | [_] => rfl
  | a :: b :: rest => by
    simp only [markCont, List.length_cons]
    rw [markCont_length (b :: rest)]
    simp

theorem readVarintGo_markCont : ∀ (d : List Nat) (acc i : Nat), d ≠ [] →
    (∀ b ∈ d, b < 128) → i + d.length ≤ 8 →
    readVarintGo (markCont d) acc i =
      some (List.foldl (fun a b => a * 128 + b) acc d, i + d.length)
  | [], _, _, h, _, _ => absurd rfl h
  | [a], acc, i, _, hd, hlen => by
    have ha : a < 128 := hd a (by simp)
    have hi : i ≠ 8 := by simp at hlen; omega
    have ha2 : a % 256 = a := Nat.mod_eq_of_lt (by omega)
    simp [markCont, readVarintGo, hi, ha2, ha, Nat.mod_eq_of_lt ha]
  | a :: b :: rest, acc, i, _, hd, hlen => by
    have ha : a < 128 := hd a (by simp)
    have hi : i ≠ 8 := by simp at hlen; omega
    have h1 : (a + 128) % 128 = a := by omega
    have h2 : ¬ (a + 128) % 256 < 128 := by
      rw [Nat.mod_eq_of_lt (show a + 128 < 256 by omega)]; omega
    rw [markCont]
    show readVarintGo ((a + 128) :: markCont (b :: rest)) acc i = _
    rw [readVarintGo, if_neg hi]
    simp only [h1, if_neg h2]
    rw [readVarintGo_markCont (b :: rest) (acc * 128 + a) (i + 1) (by simp)
      (fun x hx => hd x (List.mem_cons_of_mem _ hx)) (by simp at hlen ⊢; omega)]
    simp only [List.foldl_cons, List.length_cons]
    congr 2
    omega

theorem readVarintGo_contMap : ∀ (d rest : List Nat) (acc i : Nat),
    (∀ b ∈ d, b < 128) → i + d.length ≤ 8 →
    readVarintGo (d.map (fun b => b + 128) ++ rest) acc i =
      readVarintGo rest (List.foldl (fun a b => a * 128 + b) acc d) (i + d.length)
  | [], rest, acc, i, _, _ => by simp
  | a :: d, rest, acc, i, hd, hlen => by
    have ha : a < 128 := hd a (by simp)
    have hi : i ≠ 8 := by simp at hlen; omega
    have h1 : (a + 128) % 128 = a := by omega
    have h2 : ¬ (a + 128) % 256 < 128 := by
      rw [Nat.mod_eq_of_lt (show a + 128 < 256 by omega)]; omega
    simp only [List.map_cons, List.cons_append]
    rw [readVarintGo, if_neg hi]
    simp only [h1, if_neg h2]
    rw [readVarintGo_contMap d rest (acc * 128 + a) (i + 1)
      (fun x hx => hd x (List.mem_cons_of_mem _ hx)) (by simp at hlen ⊢; omega)]
    simp only [List.foldl_cons, List.length_cons]
    congr 1
    omega

theorem fixDigits_length : ∀ n y, (fixDigits n y).length = n
  | 0, _ => rfl
  | n + 1, y => by
    simp only [fixDigits, List.length_append, List.length_singleton]
    rw [fixDigits_length n (y / 128)]

theorem fixDigits_lt : ∀ n y, ∀ b ∈ fixDigits n y, b < 128
  | 0, _ => by simp [fixDigits]
  | n + 1, y => by
    intro b hb
    simp only [fixDigits, List.mem_append, List.mem_singleton] at hb
    rcases hb with h | h
    · exact fixDigits_lt n (y / 128) b h
    · subst h; exact Nat.mod_lt _ (by norm_num)

theorem fixDigits_foldl : ∀ n y acc,
    List.foldl (fun a b => a * 128 + b) acc (fixDigits n y) =
      acc * 128 ^ n + y % 128 ^ n
  | 0, y, acc => by simp [fixDigits, Nat.mod_one]
  | n + 1, y, acc => by
    rw [fixDigits, List.foldl_append]
    rw [fixDigits_foldl n (y / 128) acc]
    simp only [List.foldl_cons, List.foldl_nil]
    have hmod : y % 128 ^ (n + 1) = y % 128 + 128 * (y / 128 % 128 ^ n) := by
      rw [pow_succ']; exact Nat.mod_mul
    rw [hmod]
    ring

/-- C5: round-trip — varint-encoding any `x < 2^64` and decoding with
`read_varint` recovers `x`, consuming exactly the encoding's length. -/
theorem varint_round_trip (x : Nat) (hx : x < 2 ^ 64) :
    read_varint (encodeVarint x) = some (x, (encodeVarint x).length) := by
  have hpow : (128 : Nat) ^ 8 = 2 ^ 56 := by norm_num
  by_cases h : x < 2 ^ 56
  · rw [encodeVarint, if_pos h, markCont_length]
    unfold read_varint
    rw [readVarintGo_markCont (b128 x) 0 0 (b128_ne_nil x) (b128_digits_lt x)
      (by have := b128_length_le 8 x (by omega) (by norm_num); simpa using this)]
    rw [b128_foldl]
    simp
  · rw [encodeVarint, if_neg h]
    unfold read_varint
    rw [readVarintGo_contMap (fixDigits 8 (x / 256)) [x % 256] 0 0 (fixDigits_lt 8 _)
      (by rw [fixDigits_length])]
    rw [fixDigits_foldl, fixDigits_length]
    have hdiv : x / 256 % 128 ^ 8 = x / 256 := by
      apply Nat.mod_eq_of_lt
      rw [hpow]
      omega
    rw [readVarintGo, if_pos rfl]
    simp only [List.length_append, List.length_map, List.length_singleton,
      fixDigits_length, hdiv]
    congr 2
    omega

/-- C5 witness: round-trip instantiated at `x = 2^60 + 5`. -/
theorem varint_round_trip_witness :
    read_varint (encodeVarint (2 ^ 60 + 5)) =
      some (2 ^ 60 + 5, (encodeVarint (2 ^ 60 + 5)).length) :=
  varint_round_trip (2 ^ 60 + 5) (by norm_num)

section Bisect

variable {β : Type _} [LinearOrder β]

/-- Embedding of CPython's `bisect_left(a, x)` loop: while `lo < hi`, probe
`mid = (lo + hi) // 2` and narrow to the half that keeps the leftmost
insertion point. -/
def bisectLeftAux (d : β) (ks : List β) (x : β) (lo hi : Nat) : Nat :=
  if h : lo < hi then
    if ks.getD ((lo + hi) / 2) d < x then bisectLeftAux d ks x ((lo + hi) / 2 + 1) hi
    else bisectLeftAux d ks x lo ((lo + hi) / 2)
  else lo
termination_by hi - lo
decreasing_by
  · omega
  · omega

/-- Embedding of `bisect_left(a, x, key=f)` as used by every `get_record`:
`ks` is the list of cell keys (`f` mapped over the cells). -/
def bisect_left (d : β) (ks : List β) (x : β) : Nat :=
  bisectLeftAux d ks x 0 ks.length

/-- Index of the first key that is `≥ x`: what a left-to-right linear scan
for the smallest qualifying cell would return (`ks.length` when none does). -/
def linIdx (ks : List β) (x : β) : Nat :=
  (ks.takeWhile (fun k => decide (k < x))).length

theorem pairwise_le_getD (d : β) (l : List β) (hs : l.Pairwise (· ≤ ·)) :
    ∀ i j, i ≤ j → j < l.length → l.getD i d ≤ l.getD j d := by
  induction l with
  | nil => intro i j _ hj; simp at hj
  | cons a t ih =>
    intro i j hij hj
    rcases List.pairwise_cons.mp hs with ⟨ha, ht⟩
    match i, j with
    | 0, 0 => exact le_refl _
    | 0, j + 1 =>
      simp only [List.getD_cons_zero, List.getD_cons_succ]
      have hjl : j < t.length := by simp at hj; omega
      have hmem : t.getD j d ∈ t := by
        have : t.getD j d = t[j] := by
          simp [List.getD_eq_getElem?_getD, List.getElem?_eq_getElem hjl]
        rw [this]; exact List.getElem_mem hjl
      exact ha _ hmem
    | i + 1, j + 1 =>
      simp only [List.getD_cons_succ]
      exact ih ht i j (by omega) (by simp at hj; omega)

theorem length_takeWhile_eq {p : β → Bool} (d : β) (l : List β) (m : Nat)
    (h1 : m ≤ l.length) (h2 : ∀ i, i < m → p (l.getD i d) = true)
    (h3 : m < l.length → p (l.getD m d) = false) :
    (l.takeWhile p).length = m := by
  induction l generalizing m with
  | nil => simp at h1 ⊢; omega
  | cons a t ih =>
    match m with
    | 0 =>
      have hpa : p a = false := by
        have := h3 (by simp)
        simpa using this
      simp [List.takeWhile_cons, hpa]
    | m + 1 =>
      have hpa : p a = true := by simpa using h2 0 (by omega)
      rw [List.takeWhile_cons, if_pos hpa]
      simp only [List.length_cons]
      rw [ih m (by simp at h1; omega)
        (fun i hi => by simpa using h2 (i + 1) (by omega))
        (fun hm => by simpa using h3 (by simp; omega))]

theorem takeWhile_length_spec {p : β → Bool} (d : β) (l : List β) :
    (l.takeWhile p).length ≤ l.length ∧
      (∀ i, i < (l.takeWhile p).length → p (l.getD i d) = true) ∧
      ((l.takeWhile p).length < l.length → p (l.getD (l.takeWhile p).length d) = false) := by
  induction l with
  | nil => simp
  | cons a t ih =>
    by_cases hpa : p a = true
    · rw [List.takeWhile_cons, if_pos hpa]
      refine ⟨by simp; exact ih.1, ?_, ?_⟩
      · intro i hi
        match i with
        | 0 => simpa using hpa
        | i + 1 =>
          simp only [List.getD_cons_succ]
          exact ih.2.1 i (by simpa using hi)
      · intro hlt
        simp only [List.length_cons, List.getD_cons_succ]
        exact ih.2.2 (by simpa using hlt)
    · have hpa2 : p a = false := by simpa using hpa
      rw [List.takeWhile_cons, if_neg (by simp [hpa2])]
      exact ⟨by simp, by simp, fun _ => by simpa using hpa2⟩

theorem bisectLeftAux_eq (d : β) (ks : List β) (x : β)
    (hs : ks.Pairwise (· ≤ ·)) :
    ∀ n lo hi, hi - lo ≤ n → lo ≤ hi → hi ≤ ks.length →
      (∀ i, i < lo → ks.getD i d < x) →
      (∀ i, hi ≤ i → i < ks.length → ¬ ks.getD i d < x) →
      bisectLeftAux d ks x lo hi = linIdx ks x := by
  intro n
  induction n with
  | zero =>
    intro lo hi h0 hlohi hhi hlo hhi2
    have heq : lo = hi := by omega
    rw [bisectLeftAux, dif_neg (by omega)]
    refine (length_takeWhile_eq d ks lo (by omega) ?_ ?_).symm
    · intro i hi'
      exact decide_eq_true (hlo i hi')
    · intro hlt
      exact decide_eq_false (hhi2 lo (by omega) hlt)
  | succ n ih =>
    intro lo hi hn hlohi hhi hlo hhi2
    by_cases hlt : lo < hi
    · rw [bisectLeftAux, dif_pos hlt]
      by_cases hm : ks.getD ((lo + hi) / 2) d < x
      · rw [if_pos hm]
        refine ih ((lo + hi) / 2 + 1) hi (by omega) (by omega) hhi ?_ hhi2
        intro i hi'
        exact lt_of_le_of_lt (pairwise_le_getD d ks hs i ((lo + hi) / 2) (by omega) (by omega)) hm
      · rw [if_neg hm]
        refine ih lo ((lo + hi) / 2) (by omega) (by omega) (by omega) hlo ?_
        intro i hi1 hi2 hc
        exact hm (lt_of_le_of_lt (pairwise_le_getD d ks hs ((lo + hi) / 2) i hi1 hi2) hc)
    · exact ih lo hi (by omega) hlohi hhi hlo hhi2

/-- Binary search on a sorted key list computes the index of the smallest
key `≥ x`, i.e. agrees with the linear scan. -/
theorem bisect_left_eq_linIdx (d : β) (ks : List β) (x : β)
    (hs : ks.Pairwise (· ≤ ·)) :
    bisect_left d ks x = linIdx ks x :=
  bisectLeftAux_eq d ks x hs ks.length 0 ks.length (by omega) (by omega) (le_refl _)
    (fun i h => absurd h (by omega)) (fun i h1 h2 => absurd (lt_of_le_of_lt h1 h2) (by omega))

theorem linIdx_le_length (ks : List β) (x : β) : linIdx ks x ≤ ks.length :=
  (takeWhile_length_spec x ks).1

theorem linIdx_lt (d : β) (ks : List β) (x : β) :
    ∀ i, i < linIdx ks x → ks.getD i d < x := by
  intro i hi
  exact of_decide_eq_true ((takeWhile_length_spec d ks).2.1 i hi)

theorem linIdx_ge (d : β) (ks : List β) (x : β) (h : linIdx ks x < ks.length) :
    x ≤ ks.getD (linIdx ks x) d := by
  have := (takeWhile_length_spec d ks).2.2 h
  exact not_lt.mp (of_decide_eq_false this)

theorem linIdx_mem (d : β) (ks : List β) (x : β) (hs : ks.Pairwise (· ≤ ·))
    (hx : x ∈ ks) : linIdx ks x < ks.length ∧ ks.getD (linIdx ks x) d = x := by
  rcases List.getElem_of_mem hx with ⟨j, hj, hjx⟩
  have hjD : ks.getD j d = x := by
    simp [List.getD_eq_getElem?_getD, List.getElem?_eq_getElem hj, hjx]
  have hij : linIdx ks x ≤ j := by
    by_contra hc
    have := linIdx_lt d ks x j (by omega)
    rw [hjD] at this
    exact absurd this (lt_irrefl x)
  have hlt : linIdx ks x < ks.length := by omega
  refine ⟨hlt, le_antisymm ?_ (linIdx_ge d ks x hlt)⟩
  calc ks.getD (linIdx ks x) d ≤ ks.getD j d := pairwise_le_getD d ks hs _ j hij hj
    _ = x := hjD

/-- Embedding of the interior-page descent (`TableInteriorPage.get_record`
lines 287-293 and `IndexInteriorPage.get_record` lines 311-317): bisect the
cell keys, and take that cell's child pointer when the index is in range and
its key is `≥` the search key, the right child otherwise.  `some i` stands
for the child pointer of cell `i`, `none` for the right-child pointer. -/
def descendBisect (d : β) (ks : List β) (x : β) : Option Nat :=
  if bisect_left d ks x < ks.length ∧ x ≤ ks.getD (bisect_left d ks x) d then
    some (bisect_left d ks x)
  else none

/-- Descent as specified: linearly scan for the smallest cell key `≥ x`,
falling back to the right child when no cell qualifies. -/
def descendLinear (ks : List β) (x : β) : Option Nat :=
  if linIdx ks x < ks.length then some (linIdx ks x) else none

/-- C3: on a sorted interior page the binary-search descent picks exactly
the child a linear scan for the smallest key `≥ x` picks (right child when
none qualifies), and an exact key match descends into that cell's child,
never the right child. -/
theorem descend_bisect_eq_linear (d : β) (ks : List β) (x : β)
    (hs : ks.Pairwise (· ≤ ·)) :
    descendBisect d ks x = descendLinear ks x ∧
      (x ∈ ks → ∃ i, descendBisect d ks x = some i ∧ ks.getD i d = x) := by
  have hb := bisect_left_eq_linIdx d ks x hs
  constructor
  · rw [descendBisect, descendLinear, hb]
    by_cases hlt : linIdx ks x < ks.length
    · rw [if_pos ⟨hlt, linIdx_ge d ks x hlt⟩, if_pos hlt]
    · rw [if_neg (by intro hc; exact hlt hc.1), if_neg hlt]
  · intro hx
    rcases linIdx_mem d ks x hs hx with ⟨hlt, hval⟩
    refine ⟨linIdx ks x, ?_, hval⟩
    rw [descendBisect, hb, if_pos ⟨hlt, le_of_eq hval.symm⟩]

/-- C3 witness: the descent equivalence at the concrete sorted key list
`[2, 5, 5, 9]` with search key `5`. -/
theorem descend_bisect_eq_linear_witness :
    descendBisect 0 [2, 5, 5, 9] (5 : Nat) = descendLinear [2, 5, 5, 9] 5 ∧
      ((5 : Nat) ∈ [2, 5, 5, 9] →
        ∃ i, descendBisect 0 [2, 5, 5, 9] (5 : Nat) = some i ∧
          List.getD [2, 5, 5, 9] i 0 = 5) :=
  descend_bisect_eq_linear 0 [2, 5, 5, 9] 5 (by decide)

end Bisect

/-- Table B-tree: a leaf page holds `(row_id, record)` cells, an interior
page holds `(key, child)` cells plus the right child.  Following a child
page number through `Database.get_page` is modelled as descending into the
child subtree; the record payload type `α` is abstract. -/
inductive TableTree (α : Type) where
  | leaf (cells : List (Nat × α)) : TableTree α
  | interior (cells : List (Nat × TableTree α)) (right : TableTree α) : TableTree α

/-- Embedding of `TableLeafPage.get_record` (lines 264-269) and
`TableInteriorPage.get_record` (lines 287-293): `bisect_left` over the cell
keys; a leaf answers on an exact row-id hit, an interior page descends into
the chosen cell's child when the index is in range and its key is
`>= row_id`, into the right child otherwise. -/
def TableTree.get_record {α : Type} : TableTree α → Nat → Option α
  | TableTree.leaf cells, x =>
    match cells[bisect_left 0 (cells.map Prod.fst) x]? with
    | some c => if c.1 = x then some c.2 else none
    | none => none
  | TableTree.interior cells right, x =>
    match h : cells[bisect_left 0 (cells.map Prod.fst) x]? with
    | some c =>
      if x ≤ c.1 then TableTree.get_record c.2 x else TableTree.get_record right x
    | none => TableTree.get_record right x
termination_by t _ => sizeOf t
decreasing_by
  all_goals simp_wf
  have hmem : c ∈ cells := List.getElem?_mem h
  have h1 : sizeOf c < sizeOf cells := List.sizeOf_lt_of_mem hmem
  obtain ⟨k, ct⟩ := c
  simp only [Prod.mk.sizeOf_spec] at h1
  show sizeOf ct < 1 + sizeOf cells + sizeOf right
  omega

/-- All `(row_id, record)` cells of the leaf pages, left to right. -/
def TableTree.leaves {α : Type} : TableTree α → List (Nat × α)
  | TableTree.leaf cells => cells
  | TableTree.interior cells right =>
    (cells.attach.map (fun c => TableTree.leaves c.1.2)).flatten ++ TableTree.leaves right
termination_by t => sizeOf t
decreasing_by
  all_goals simp_wf
  have h1 : sizeOf c.1 < sizeOf cells := List.sizeOf_lt_of_mem c.2
  obtain ⟨⟨k, ct⟩, hc⟩ := c
  simp only [Prod.mk.sizeOf_spec] at h1
  show sizeOf ct < 1 + sizeOf cells + sizeOf right
  omega

theorem TableTree.leaves_leaf {α : Type} (cells : List (Nat × α)) :
    (TableTree.leaf cells).leaves = cells := by
  rw [TableTree.leaves]

theorem TableTree.leaves_interior {α : Type} (cells : List (Nat × TableTree α))
    (right : TableTree α) :
    (TableTree.interior cells right).leaves =
      (cells.map (fun c => TableTree.leaves c.2)).flatten ++ right.leaves := by
  rw [TableTree.leaves]
  congr 1
  congr 1
  exact List.attach_map_val cells (fun c => TableTree.leaves c.2)

/-- Linear scan of leaf cells, left to right, for the first cell carrying
the given row-id. -/
def scanFind {α : Type} (cells : List (Nat × α)) (x : Nat) : Option α :=
  (cells.find? (fun c => decide (c.1 = x))).map Prod.snd

/-- Lower bound check: `k` lies strictly above the optional bound. -/
def okLo (lo : Option Nat) (k : Nat) : Prop :=
  match lo with
  | none => True
  | some v => v < k

/-- Upper bound check: `k` lies at or below the optional bound. -/
def okHi (k : Nat) (hi : Option Nat) : Prop :=
  match hi with
  | none => True
  | some v => k ≤ v

/-- Lower bound for the `i`-th subtree of an interior page: the page's own
lower bound for the leftmost child, the previous cell's key otherwise. -/
def cellLo {α : Type} (lo : Option Nat) (cells : List (Nat × TableTree α)) : Nat → Option Nat
  | 0 => lo
  | j + 1 =>
    match cells[j]? with
    | some c => some c.1
    | none => none

/-- Well-formed table B-tree whose row-ids lie in the interval `(lo, hi]`
(`none` is unbounded): cell keys sorted and inside the interval, each
interior cell's subtree within `(previous key, its key]`, the right subtree
above the last key — spec §3 invariant (d) plus the upper-bound key rule of
§4.6. -/
inductive WF {α : Type} : Option Nat → Option Nat → TableTree α → Prop where
  | leaf {lo hi : Option Nat} {cells : List (Nat × α)}
      (hsort : (cells.map Prod.fst).Pairwise (· ≤ ·))
      (hin : ∀ c ∈ cells, okLo lo c.1 ∧ okHi c.1 hi) :
      WF lo hi (TableTree.leaf cells)
  | interior {lo hi : Option Nat} {cells : List (Nat × TableTree α)} {right : TableTree α}
      (hsort : (cells.map Prod.fst).Pairwise (· ≤ ·))
      (hin : ∀ c ∈ cells, okLo lo c.1 ∧ okHi c.1 hi)
      (hchild : ∀ i c, cells[i]? = some c → WF (cellLo lo cells i) (some c.1) c.2)
      (hright : WF (cellLo lo cells cells.length) hi right) :
      WF lo hi (TableTree.interior cells right)

theorem okLo_mono {lo : Option Nat} {j k : Nat} (h : okLo lo j) (hjk : j ≤ k) :
    okLo lo k := by
  cases lo with
  | none => trivial
  | some v => exact lt_of_lt_of_le h hjk

theorem okHi_mono {hi : Option Nat} {j k : Nat} (h : okHi k hi) (hjk : j ≤ k) :
    okHi j hi := by
  cases hi with
  | none => trivial
  | some v => exact le_trans hjk h

theorem find?_first {γ : Type _} (p : γ → Bool) (l : List γ) (m : Nat)
    (hm : m < l.length)
    (hbefore : ∀ i (h : i < l.length), i < m → p (l[i]) = false)
    (hat : p (l[m]) = true) : l.find? p = l[m]? := by
  induction l generalizing m with
  | nil => simp at hm
  | cons a t ih =>
    match m with
    | 0 =>
      rw [List.find?_cons_of_pos _ (by simpa using hat)]
      simp
    | m + 1 =>
      have hpa : p a = false := by simpa using hbefore 0 (by simp) (by omega)
      rw [List.find?_cons_of_neg _ (by simp [hpa])]
      simp only [List.getElem?_cons_succ]
      exact ih m (by simpa using hm)
        (fun i hil him => by simpa using hbefore (i + 1) (by simp; omega) (by omega))
        (by simpa using hat)

theorem keys_getD {α : Type} (cells : List (Nat × α)) (i : Nat) (h : i < cells.length) :
    (cells.map Prod.fst).getD i 0 = (cells[i]).1 := by
  have hlen : i < (cells.map Prod.fst).length := by simpa using h
  simp [List.getD_eq_getElem?_getD, List.getElem?_eq_getElem hlen,
    List.getElem?_eq_getElem h]

/-- On a leaf page with sorted row-ids, the bisect-based lookup agrees with
the left-to-right linear scan. -/
theorem leaf_get_record_eq_scanFind {α : Type} (cells : List (Nat × α)) (x : Nat)
    (hsort : (cells.map Prod.fst).Pairwise (· ≤ ·)) :
    (TableTree.leaf cells).get_record x = scanFind cells x := by
  rw [TableTree.get_record]
  rw [bisect_left_eq_linIdx 0 (cells.map Prod.fst) x hsort]
  have hlen : (cells.map Prod.fst).length = cells.length := by simp
  have hle : linIdx (cells.map Prod.fst) x ≤ cells.length := by
    have := linIdx_le_length (cells.map Prod.fst) x
    omega
  by_cases hlt : linIdx (cells.map Prod.fst) x < cells.length
  · have hsome : cells[linIdx (cells.map Prod.fst) x]? =
        some (cells[linIdx (cells.map Prod.fst) x]) :=
      List.getElem?_eq_getElem hlt
    rw [hsome]
    have hkey : (cells.map Prod.fst).getD (linIdx (cells.map Prod.fst) x) 0 =
        (cells[linIdx (cells.map Prod.fst) x]).1 := keys_getD cells _ hlt
    by_cases hx : (cells[linIdx (cells.map Prod.fst) x]).1 = x
    · simp only [if_pos hx]
      rw [scanFind, find?_first _ cells (linIdx (cells.map Prod.fst) x) hlt
        ?before (by simpa using hx)]
      · rw [hsome]; rfl
      case before =>
        intro i hil him
        have := linIdx_lt 0 (cells.map Prod.fst) x i him
        rw [keys_getD cells i hil] at this
        simp only [decide_eq_false_iff_not]
        omega
    · simp only [if_neg hx]
      have hge : x ≤ (cells[linIdx (cells.map Prod.fst) x]).1 := by
        have := linIdx_ge 0 (cells.map Prod.fst) x (by omega)
        rw [hkey] at this
        exact this
      rw [scanFind, List.find?_eq_none.mpr ?nom]
      · rfl
      case nom =>
        intro c hc
        rcases List.getElem_of_mem hc with ⟨j, hj, hjc⟩
        simp only [decide_eq_true_eq]
        by_cases hjm : j < linIdx (cells.map Prod.fst) x
        · have := linIdx_lt 0 (cells.map Prod.fst) x j hjm
          rw [keys_getD cells j hj] at this
          rw [← hjc]; omega
        · have hmono := pairwise_le_getD 0 (cells.map Prod.fst) hsort
            (linIdx (cells.map Prod.fst) x) j (by omega) (by omega)
          rw [keys_getD cells j hj, hkey] at hmono
          rw [← hjc]
          intro hcx
          rw [hcx] at hmono
          have : (cells[linIdx (cells.map Prod.fst) x]).1 = x := le_antisymm hmono hge
          exact hx this
  · have hnone : cells[linIdx (cells.map Prod.fst) x]? = none :=
      List.getElem?_eq_none (by omega)
    rw [hnone]
    have heq : linIdx (cells.map Prod.fst) x = cells.length := by omega
    rw [scanFind, List.find?_eq_none.mpr ?allless]
    · rfl
    case allless =>
      intro c hc
      rcases List.getElem_of_mem hc with ⟨j, hj, hjc⟩
      have := linIdx_lt 0 (cells.map Prod.fst) x j (by omega)
      rw [keys_getD cells j hj] at this
      simp only [decide_eq_true_eq]
      rw [← hjc]; omega

theorem mem_take_idx {γ : Type _} {l : List γ} {n : Nat} {a : γ} (h : a ∈ l.take n) :
    ∃ j, j < n ∧ ∃ hj : j < l.length, l[j] = a := by
  rcases List.getElem_of_mem h with ⟨j, hjlen, hja⟩
  have hjn : j < n := by
    have := hjlen; rw [List.length_take] at this; omega
  have hjl : j < l.length := by
    have := hjlen; rw [List.length_take] at this; omega
  refine ⟨j, hjn, hjl, ?_⟩
  have heq := List.getElem?_take_of_lt (l := l) hjn
  rw [List.getElem?_eq_getElem hjlen, List.getElem?_eq_getElem hjl] at heq
  rw [← Option.some.inj heq]
  exact hja

theorem mem_drop_idx {γ : Type _} {l : List γ} {n : Nat} {a : γ} (h : a ∈ l.drop n) :
    ∃ j, n ≤ j ∧ ∃ hj : j < l.length, l[j] = a := by
  rcases List.getElem_of_mem h with ⟨i, hilen, hia⟩
  have hil : n + i < l.length := by
    have := hilen; rw [List.length_drop] at this; omega
  refine ⟨n + i, by omega, hil, ?_⟩
  have heq := List.getElem?_drop l n i
  rw [List.getElem?_eq_getElem hilen, List.getElem?_eq_getElem hil] at heq
  rw [← Option.some.inj heq]
  exact hia

theorem WF.bounds {α : Type} {lo hi : Option Nat} {t : TableTree α} (h : WF lo hi t) :
    ∀ p ∈ t.leaves, okLo lo p.1 ∧ okHi p.1 hi := by
  induction h with
  | leaf hsort hin =>
    intro p hp
    rw [TableTree.leaves_leaf] at hp
    exact hin p hp
  | @interior lo hi cells right hsort hin hchild hright ihchild ihright =>
    intro p hp
    rw [TableTree.leaves_interior] at hp
    rcases List.mem_append.mp hp with hpl | hpr
    · rw [List.mem_flatten] at hpl
      rcases hpl with ⟨l, hl, hpl⟩
      rw [List.mem_map] at hl
      rcases hl with ⟨c, hc, rfl⟩
      rcases List.getElem_of_mem hc with ⟨i, hlt, rfl⟩
      have hsome : cells[i]? = some (cells[i]) := List.getElem?_eq_getElem hlt
      obtain ⟨hplo, hphi⟩ := ihchild i _ hsome p hpl
      constructor
      · cases i with
        | zero => exact hplo
        | succ j =>
          have hj : j < cells.length := by omega
          have hsj : cells[j]? = some (cells[j]) := List.getElem?_eq_getElem hj
          have hcl : cellLo lo cells (j + 1) = some ((cells[j]).1) := by
            simp [cellLo, hsj]
          rw [hcl] at hplo
          have hinj := hin (cells[j]) (List.getElem_mem hj)
          exact okLo_mono hinj.1 (le_of_lt hplo)
      · have hinc := hin (cells[i]) (List.getElem_mem hlt)
        exact okHi_mono hinc.2 hphi
    · obtain ⟨hplo, hphi⟩ := ihright p hpr
      refine ⟨?_, hphi⟩
      rcases hlen : cells.length with _ | j
      · rw [hlen] at hplo
        exact hplo
      · have hj : j < cells.length := by omega
        have hsj : cells[j]? = some (cells[j]) := List.getElem?_eq_getElem hj
        have hcl : cellLo lo cells (j + 1) = some ((cells[j]).1) := by
          simp [cellLo, hsj]
        rw [hlen, hcl] at hplo
        have hinj := hin (cells[j]) (List.getElem_mem hj)
        exact okLo_mono hinj.1 (le_of_lt hplo)

theorem WF.get_record_eq {α : Type} {lo hi : Option Nat} {t : TableTree α}
    (h : WF lo hi t) : ∀ x, t.get_record x = scanFind t.leaves x := by
  induction h with
  | leaf hsort hin =>
    intro x
    rw [TableTree.leaves_leaf]
    exact leaf_get_record_eq_scanFind _ x hsort
  | @interior lo hi cells right hsort hin hchild hright ihchild ihright =>
    intro x
    rw [TableTree.get_record]
    rw [bisect_left_eq_linIdx 0 _ x hsort]
    rw [TableTree.leaves_interior]
    have hlen : (cells.map Prod.fst).length = cells.length := by simp
    split
    · rename_i c heq
      obtain ⟨hlt, hceq⟩ := List.getElem?_eq_some_iff.mp heq
      have hge : x ≤ c.1 := by
        have := linIdx_ge 0 (cells.map Prod.fst) x (by omega)
        rw [keys_getD cells _ hlt, hceq] at this
        exact this
      rw [if_pos hge]
      rw [ihchild _ _ heq x]
      have hdecomp : (cells.map (fun d => TableTree.leaves d.2)).flatten =
          ((cells.take (linIdx (cells.map Prod.fst) x)).map
              (fun d => TableTree.leaves d.2)).flatten ++
            (c.2.leaves ++
              ((cells.drop (linIdx (cells.map Prod.fst) x + 1)).map
                (fun d => TableTree.leaves d.2)).flatten) := by
        conv_lhs => rw [← List.take_append_drop (linIdx (cells.map Prod.fst) x) cells,
          List.drop_eq_getElem_cons hlt]
        rw [hceq]
        simp [List.flatten_append]
      rw [hdecomp]
      have hA : ∀ p ∈ ((cells.take (linIdx (cells.map Prod.fst) x)).map
          (fun d => TableTree.leaves d.2)).flatten, ¬ (decide (p.1 = x) = true) := by
        intro p hp
        rw [List.mem_flatten] at hp
        rcases hp with ⟨l, hl, hpl⟩
        rw [List.mem_map] at hl
        rcases hl with ⟨d, hd, rfl⟩
        rcases mem_take_idx hd with ⟨j, hjidx, hjl, rfl⟩
        have hsj : cells[j]? = some (cells[j]) := List.getElem?_eq_getElem hjl
        have hb := (hchild j _ hsj).bounds p hpl
        have hkj : (cells.map Prod.fst).getD j 0 < x :=
          linIdx_lt 0 (cells.map Prod.fst) x j hjidx
        rw [keys_getD cells j hjl] at hkj
        have hple : p.1 ≤ (cells[j]).1 := hb.2
        simp only [decide_eq_true_eq]
        omega
      have hB : ∀ p ∈ ((cells.drop (linIdx (cells.map Prod.fst) x + 1)).map
          (fun d => TableTree.leaves d.2)).flatten, ¬ (decide (p.1 = x) = true) := by
        intro p hp
        rw [List.mem_flatten] at hp
        rcases hp with ⟨l, hl, hpl⟩
        rw [List.mem_map] at hl
        rcases hl with ⟨d, hd, rfl⟩
        rcases mem_drop_idx hd with ⟨j, hjge, hjl, rfl⟩
        have hsj : cells[j]? = some (cells[j]) := List.getElem?_eq_getElem hjl
        have hb := (hchild j _ hsj).bounds p hpl
        obtain ⟨m, rfl⟩ : ∃ m, j = m + 1 := ⟨j - 1, by omega⟩
        have hm : m < cells.length := by omega
        have hsm : cells[m]? = some (cells[m]) := List.getElem?_eq_getElem hm
        have hcl : cellLo lo cells (m + 1) = some ((cells[m]).1) := by
          simp [cellLo, hsm]
        rw [hcl] at hb
        have hmk : c.1 ≤ (cells[m]).1 := by
          have := pairwise_le_getD 0 (cells.map Prod.fst) hsort
            (linIdx (cells.map Prod.fst) x) m (by omega) (by omega)
          rw [keys_getD cells _ hlt, hceq, keys_getD cells m hm] at this
          exact this
        have hplo : (cells[m]).1 < p.1 := hb.1
        simp only [decide_eq_true_eq]
        omega
      have hR : ∀ p ∈ right.leaves, ¬ (decide (p.1 = x) = true) := by
        intro p hp
        have hb := hright.bounds p hp
        obtain ⟨m, hmlen⟩ : ∃ m, cells.length = m + 1 := ⟨cells.length - 1, by omega⟩
        have hm : m < cells.length := by omega
        have hsm : cells[m]? = some (cells[m]) := List.getElem?_eq_getElem hm
        have hcl : cellLo lo cells (m + 1) = some ((cells[m]).1) := by
          simp [cellLo, hsm]
        rw [hmlen, hcl] at hb
        have hmk : c.1 ≤ (cells[m]).1 := by
          have := pairwise_le_getD 0 (cells.map Prod.fst) hsort
            (linIdx (cells.map Prod.fst) x) m (by omega) (by omega)
          rw [keys_getD cells _ hlt, hceq, keys_getD cells m hm] at this
          exact this
        have hplo : (cells[m]).1 < p.1 := hb.1
        simp only [decide_eq_true_eq]
        omega
      unfold scanFind
      rw [List.find?_append, List.find?_append, List.find?_append]
      rw [List.find?_eq_none.mpr hA, List.find?_eq_none.mpr hB, List.find?_eq_none.mpr hR]
      simp
    · rename_i heq
      have hidxge : cells.length ≤ linIdx (cells.map Prod.fst) x := by
        have := List.getElem?_eq_none_iff.mp heq
        omega
      rw [ihright x]
      have hAll : ∀ p ∈ (cells.map (fun d => TableTree.leaves d.2)).flatten,
          ¬ (decide (p.1 = x) = true) := by
        intro p hp
        rw [List.mem_flatten] at hp
        rcases hp with ⟨l, hl, hpl⟩
        rw [List.mem_map] at hl
        rcases hl with ⟨d, hd, rfl⟩
        rcases List.getElem_of_mem hd with ⟨j, hjl, rfl⟩
        have hsj : cells[j]? = some (cells[j]) := List.getElem?_eq_getElem hjl
        have hb := (hchild j _ hsj).bounds p hpl
        have hkj : (cells.map Prod.fst).getD j 0 < x :=
          linIdx_lt 0 (cells.map Prod.fst) x j (by omega)
        rw [keys_getD cells j hjl] at hkj
        have hple : p.1 ≤ (cells[j]).1 := hb.2
        simp only [decide_eq_true_eq]
        omega
      unfold scanFind
      rw [List.find?_append, List.find?_eq_none.mpr hAll]
      simp

/-- C1: on a well-formed table B-tree, `find_in_table` (`get_record` on the
root page) returns exactly what a linear scan of every leaf cell returns: the
first record whose row-id equals `x` when present, `none` when absent. -/
theorem find_in_table_eq_linear_scan {α : Type} (t : TableTree α) (x : Nat)
    (hwf : WF none none t) :
    t.get_record x = scanFind t.leaves x ∧
      ((∀ p ∈ t.leaves, p.1 ≠ x) → t.get_record x = none) := by
  have h := hwf.get_record_eq x
  refine ⟨h, fun habs => ?_⟩
  rw [h, scanFind, List.find?_eq_none.mpr ?nom]
  · rfl
  case nom =>
    intro p hp
    simp only [decide_eq_true_eq]
    exact habs p hp

/-- C1 witness: the equivalence at a concrete two-level tree and row-id 5. -/
theorem find_in_table_eq_linear_scan_witness :
    (TableTree.interior [(5, TableTree.leaf [(3, 30), (5, 50)])]
        (TableTree.leaf [(7, (70 : Nat))])).get_record 5 =
      scanFind (TableTree.interior [(5, TableTree.leaf [(3, 30), (5, 50)])]
        (TableTree.leaf [(7, (70 : Nat))])).leaves 5 ∧
      ((∀ p ∈ (TableTree.interior [(5, TableTree.leaf [(3, 30), (5, 50)])]
          (TableTree.leaf [(7, (70 : Nat))])).leaves, p.1 ≠ 5) →
        (TableTree.interior [(5, TableTree.leaf [(3, 30), (5, 50)])]
          (TableTree.leaf [(7, (70 : Nat))])).get_record 5 = none) := by
  refine find_in_table_eq_linear_scan _ 5 ?_
  refine WF.interior (by decide) ?_ ?_ ?_
  · intro c hc
    simp only [List.mem_singleton] at hc
    subst hc
    exact ⟨trivial, trivial⟩
  · intro i c hic
    match i with
    | 0 =>
      simp only [List.getElem?_cons_zero] at hic
      cases hic
      refine WF.leaf (by decide) ?_
      intro c hc
      simp only [List.mem_cons, List.mem_singleton] at hc
      rcases hc with rfl | hc
      · exact ⟨trivial, by show (3 : Nat) ≤ 5; norm_num⟩
      · simp at hc
        subst hc
        exact ⟨trivial, by show (5 : Nat) ≤ 5; norm_num⟩
    | i + 1 =>
      simp at hic
  · show WF (some 5) none _
    refine WF.leaf (by decide) ?_
    intro c hc
    simp only [List.mem_singleton] at hc
    subst hc
    exact ⟨by show (5 : Nat) < 7; norm_num, trivial⟩

theorem get_record_none_of_absent {α : Type} {t : TableTree α} {x : Nat}
    (hwf : WF none none t) (habs : ∀ p ∈ t.leaves, p.1 ≠ x) :
    t.get_record x = none := by
  rw [hwf.get_record_eq x, scanFind, List.find?_eq_none.mpr ?nom]
  · rfl
  case nom =>
    intro p hp
    simp only [decide_eq_true_eq]
    exact habs p hp

/-- Embedding of `IndexLeafPage.get_record` (lines 332-337): the page's
cells are their records' value tuples (modelled as homogeneous integer
columns, compared under Python's lexicographic list order); `bisect_left`
over the tuples, the prefix test `values[:len(key)] != key`, then the
trailing value `values[-1]` is the row-id handed to the secondary table-tree
lookup (`get_user_info_by_id`, lines 360-364), whose result is returned
unchanged. -/
def indexLeafGet {α : Type} (cells : List (List Nat)) (T : List Nat)
    (table : TableTree α) : Option α :=
  match cells[bisect_left [] cells T]? with
  | some c =>
    if c.take T.length = T then
      match c.getLast? with
      | some r => table.get_record r
      | none => none
    else none
  | none => none

/-- The index-leaf lookup as the spec words it: linearly scan for the
smallest cell tuple `≥ T`; on a prefix match extract the trailing value (the
row-id) and return the result of the base-table lookup, otherwise
not-found. -/
def indexLeafLinear {α : Type} (cells : List (List Nat)) (T : List Nat)
    (table : TableTree α) : Option α :=
  match cells[linIdx cells T]? with
  | some c =>
    if c.take T.length = T then
      match c.getLast? with
      | some r => table.get_record r
      | none => none
    else none
  | none => none

/-- C2: on a sorted index-leaf page, `get_record` behaves exactly as the
spec describes — it finds the smallest cell whose stored key is `≥ T` (the
binary search agrees with the linear scan), and on a length-`|T|` prefix
match forwards the cell's trailing row-id to the base table tree, returning
that lookup's result; otherwise it returns not-found. -/
theorem index_leaf_get_eq_linear {α : Type} (cells : List (List Nat))
    (T : List Nat) (table : TableTree α) (hsort : cells.Pairwise (· ≤ ·)) :
    indexLeafGet cells T table = indexLeafLinear cells T table := by
  simp only [indexLeafGet, indexLeafLinear,
    bisect_left_eq_linIdx [] cells T hsort]

/-- C2 witness: the equivalence at the concrete sorted page
`[[3, 10], [5, 7]]` with search tuple `[5]` over a one-leaf table. -/
theorem index_leaf_get_eq_linear_witness :
    indexLeafGet [[3, 10], [5, 7]] [5] (TableTree.leaf [(7, (70 : Nat))]) =
      indexLeafLinear [[3, 10], [5, 7]] [5] (TableTree.leaf [(7, (70 : Nat))]) :=
  index_leaf_get_eq_linear [[3, 10], [5, 7]] [5] (TableTree.leaf [(7, (70 : Nat))])
    (by decide)

/-- C9 counterexample: a dangling index entry — cell `[5, 7]` matches the
search tuple `[5]` and points at row-id `7`, which is absent from the base
table — makes the lookup return plain `none`, the same silent not-found an
absent tuple produces; no error value exists in the code path
(`get_user_info_by_id` just forwards the table lookup's result). -/
theorem index_dangling_silent_none :
    indexLeafGet [[5, 7]] [5] (TableTree.leaf [(3, (30 : Nat))]) = none ∧
      List.take 1 [5, 7] = [5] ∧
      List.getLast? [5, 7] = some 7 ∧
      (TableTree.leaf [(3, (30 : Nat))]).get_record 7 = none := by
  have hb : bisect_left [] [[5, 7]] [5] = 0 := by
    rw [bisect_left, bisectLeftAux]
    norm_num
    rw [if_neg (by decide : ¬ ([5, 7] < ([5] : List Nat)))]
    rw [bisectLeftAux]
    simp
  have hrec : (TableTree.leaf [(3, (30 : Nat))]).get_record 7 = none := by
    rw [TableTree.get_record]
    have hb2 : bisect_left 0 ([(3, (30 : Nat))].map Prod.fst) 7 = 1 := by
      rw [bisect_left, bisectLeftAux]
      norm_num
      rw [bisectLeftAux]
      simp
    rw [hb2]
    simp
  refine ⟨?_, rfl, rfl, hrec⟩
  rw [indexLeafGet, hb]
  simp only [List.getElem?_cons_zero]
  rw [if_pos (by decide : List.take (List.length [5]) [5, 7] = [5])]
  simpa using hrec

/-- C9 (amended): whenever the index-leaf lookup matches a cell whose key
prefix equals the search tuple but whose trailing row-id is absent from the
(well-formed) base table tree, it returns `none` — indistinguishable from an
absent tuple; no `DanglingIndex` error is reported. -/
theorem index_dangling_returns_none {α : Type} (cells : List (List Nat))
    (T : List Nat) (table : TableTree α) (c : List Nat) (r : Nat)
    (hc : cells[bisect_left [] cells T]? = some c)
    (hpref : List.take T.length c = T)
    (hlast : List.getLast? c = some r)
    (hwf : WF none none table)
    (habs : ∀ p ∈ table.leaves, p.1 ≠ r) :
    indexLeafGet cells T table = none := by
  rw [indexLeafGet, hc]
  show (if List.take T.length c = T then
      (match c.getLast? with
        | some r => table.get_record r
        | none => none)
    else none) = none
  rw [if_pos hpref, hlast]
  exact get_record_none_of_absent hwf habs

/-- C9 amended-claim witness: the dangling lookup at the concrete page
`[[5, 7]]`, tuple `[5]`, row-id `7` absent from the base table. -/
theorem index_dangling_returns_none_witness :
    indexLeafGet [[5, 7]] [5] (TableTree.leaf [(12, (120 : Nat))]) = none := by
  refine index_dangling_returns_none [[5, 7]] [5] _ [5, 7] 7 ?_ (by decide) rfl ?_ ?_
  · have hb : bisect_left [] [[5, 7]] [5] = 0 := by
      rw [bisect_left, bisectLeftAux]
      norm_num
      rw [if_neg (by decide : ¬ ([5, 7] < ([5] : List Nat)))]
      rw [bisectLeftAux]
      simp
    rw [hb]
    rfl
  · exact WF.leaf (by decide) (fun c hc => ⟨trivial, trivial⟩)
  · intro p hp
    rw [TableTree.leaves_leaf] at hp
    simp only [List.mem_singleton] at hp
    subst hp
    omega

/-- Column values as produced by `Record.__init__`: Python scalars, the
accidental 1-tuples that `struct.unpack` without `[0]` leaves behind for
type codes 5, 6 and 7, raw blob bytes, and text (kept as raw bytes; the
encoding decode is out of scope of the numeric claims). -/
inductive PyValue where
  | pynone : PyValue
  | int (i : Int) : PyValue
  | tupleInt (i : Int) : PyValue
  | tupleFloat (bytes : List Nat) : PyValue
  | blob (bytes : List Nat) : PyValue
  | text (bytes : List Nat) : PyValue
deriving DecidableEq

/-- Big-endian unsigned value of a byte list. -/
def beVal (bs : List Nat) : Nat :=
  bs.foldl (fun a b => a * 256 + b) 0

/-- `struct.unpack` of a signed big-endian `w`-bit integer (two's
complement). -/
def signedBE (w : Nat) (bs : List Nat) : Int :=
  if beVal bs < 2 ^ (w - 1) then (beVal bs : Int) else (beVal bs : Int) - 2 ^ w

/-- Python `file.read(n)` at position `p`: up to `n` bytes (fewer at end of
file, silently) and the new position. -/
def pyRead (d : List Nat) (p n : Nat) : List Nat × Nat :=
  ((d.drop p).take n, p + ((d.drop p).take n).length)

/-- `read_varint` on the file `(d, p)`: decoded value plus new position. -/
def readVarintAt (d : List Nat) (p : Nat) : Option (Nat × Nat) :=
  match read_varint (d.drop p) with
  | some (v, n) => some (v, p + n)
  | none => none

/-- One column decode of `Record.__init__`'s `match dtype` (lines 96-132).
`struct.unpack` of a fixed width raises on a short read (`none`); blob and
text keep whatever `file.read` returns.  Type 3 left-pads one zero byte and
unpacks `>i`; type 5 left-pads two zero bytes and unpacks `>q` without the
`[0]` index, type 6 and 7 likewise keep the 1-tuple; 10 and 11 fall through
to `ValueError`. -/
def decodeColumn (d : List Nat) (p : Nat) (dtype : Nat) : Option (PyValue × Nat) :=
  match dtype with
  | 0 => some (.pynone, p)
  | 1 =>
    match d[p]? with
    | some b => some (.int b, p + 1)
    | none => none
  | 2 =>
    if (pyRead d p 2).1.length = 2 then
      some (.int (signedBE 16 (pyRead d p 2).1), (pyRead d p 2).2)
    else none
  | 3 =>
    if (pyRead d p 3).1.length = 3 then
      some (.int (signedBE 32 (0 :: (pyRead d p 3).1)), (pyRead d p 3).2)
    else none
  | 4 =>
    if (pyRead d p 4).1.length = 4 then
      some (.int (signedBE 32 (pyRead d p 4).1), (pyRead d p 4).2)
    else none
  | 5 =>
    if (pyRead d p 6).1.length = 6 then
      some (.tupleInt (signedBE 64 (0 :: 0 :: (pyRead d p 6).1)), (pyRead d p 6).2)
    else none
  | 6 =>
    if (pyRead d p 8).1.length = 8 then
      some (.tupleInt (signedBE 64 (pyRead d p 8).1), (pyRead d p 8).2)
    else none
  | 7 =>
    if (pyRead d p 8).1.length = 8 then
      some (.tupleFloat (pyRead d p 8).1, (pyRead d p 8).2)
    else none
  | 8 => some (.int 0, p)
  | 9 => some (.int 1, p)
  | x =>
    if 12 ≤ x ∧ x % 2 = 0 then
      some (.blob (pyRead d p ((x - 12) / 2)).1, (pyRead d p ((x - 12) / 2)).2)
    else if 13 ≤ x ∧ x % 2 = 1 then
      some (.text (pyRead d p ((x - 13) / 2)).1, (pyRead d p ((x - 13) / 2)).2)
    else none

/-- The `while file.tell() - record_start_offset < header_size` loop
collecting type-code varints.  Each varint consumes at least one byte, so
fuel `hsz + 1` can never run out while the loop condition still holds. -/
def readDtypes (d : List Nat) (start hsz : Nat) : Nat → Nat → Option (List Nat × Nat)
  | 0, p => if p - start < hsz then none else some ([], p)
  | fuel + 1, p =>
    if p - start < hsz then
      match readVarintAt d p with
      | some (dt, p2) =>
        match readDtypes d start hsz fuel p2 with
        | some (dts, p3) => some (dt :: dts, p3)
        | none => none
      | none => none
    else some ([], p)

/-- The `for i, dtype in enumerate(dtypes)` body decoding every column. -/
def decodeColumns (d : List Nat) : List Nat → Nat → Option (List PyValue × Nat)
  | [], p => some ([], p)
  | dt :: dts, p =>
    match decodeColumn d p dt with
    | some (v, p2) =>
      match decodeColumns d dts p2 with
      | some (vs, p3) => some (v :: vs, p3)
      | none => none
    | none => none

/-- Embedding of `Record.__init__` (lines 88-132): read the header-size
varint, collect type codes while inside the header, then decode the column
values; returns the value list and the final position. -/
def recordParse (d : List Nat) (p : Nat) : Option (List PyValue × Nat) :=
  match readVarintAt d p with
  | some (hsz, p1) =>
    match readDtypes d p hsz (hsz + 1) p1 with
    | some (dts, p2) => decodeColumns d dts p2
    | none => none
  | none => none

/-- C6: the record decoder fails the claim — a type-3 column with body
`FF FF FF` decodes through the zero-padded `>i` unpack to `+16777215`
although the two's-complement 24-bit reading (`signedBE 24`) is `-1`; a
type-6 column comes back as the 1-tuple `tupleInt` instead of a scalar;
and a type-5 column is both a 1-tuple and unsigned (six `FF` bytes give
`+281474976710655`, not `-1`). -/
theorem record_numeric_decoding_bug :
    recordParse [2, 3, 255, 255, 255] 0 = some ([PyValue.int 16777215], 5) ∧
      signedBE 24 [255, 255, 255] = -1 ∧
      recordParse [2, 6, 0, 0, 0, 0, 0, 0, 0, 5] 0 =
        some ([PyValue.tupleInt 5], 10) ∧
      recordParse [2, 5, 255, 255, 255, 255, 255, 255] 0 =
        some ([PyValue.tupleInt 281474976710655], 8) ∧
      signedBE 48 [255, 255, 255, 255, 255, 255] = -1 := by
  refine ⟨by decide, by decide, by decide, by decide, by decide⟩

/-- Embedding of the seek arithmetic of `Database.get_page`
(lines 352-357): `page_offset = (page_number - 1) * page_size`, bumped by
100 when it is zero (page 1). -/
def get_page_seek (n page_size : Nat) : Nat :=
  if (n - 1) * page_size = 0 then (n - 1) * page_size + 100
  else (n - 1) * page_size

/-- Embedding of the base offset stored by `Page.__init__`
(lines 218-224): `file.tell()`, clamped to 0 when `≤ 100` (the first page is
shifted by the 100-byte file header); all cell-pointer seeks use
`self.offset + ptr`. -/
def page_base_offset (tell : Nat) : Nat :=
  if tell ≤ 100 then 0 else tell

/-- C7: for `n ≥ 1` and `page_size ≥ 512`, `get_page` seeks to byte 100 for
page 1 and to `(n-1)*page_size` otherwise, and the base offset stored on the
page it builds is 0 for page 1 and `(n-1)*page_size` otherwise. -/
theorem get_page_offsets (n ps : Nat) (hn : 1 ≤ n) (hps : 512 ≤ ps) :
    get_page_seek n ps = (if n = 1 then 100 else (n - 1) * ps) ∧
      page_base_offset (get_page_seek n ps) =
        (if n = 1 then 0 else (n - 1) * ps) := by
  by_cases h1 : n = 1
  · subst h1
    simp [get_page_seek, page_base_offset]
  · have hpos : 0 < (n - 1) * ps := Nat.mul_pos (by omega) (by omega)
    have h512 : ps ≤ (n - 1) * ps := Nat.le_mul_of_pos_left ps (by omega)
    rw [get_page_seek, if_neg (by omega)]
    rw [page_base_offset, if_neg h1, if_neg h1]
    refine ⟨rfl, ?_⟩
    rw [if_neg (by omega : ¬ (n - 1) * ps ≤ 100)]

/-- C7 witness: page 3 with page size 512 seeks to 1024 and stores base
offset 1024; applied through the pager theorem. -/
theorem get_page_offsets_witness :
    get_page_seek 3 512 = (if 3 = 1 then 100 else (3 - 1) * 512) ∧
      page_base_offset (get_page_seek 3 512) =
        (if 3 = 1 then 0 else (3 - 1) * 512) :=
  get_page_offsets 3 512 (by norm_num) (by norm_num)

/-- The 16 magic bytes `SQLite format 3` followed by NUL. -/
def sqliteMagic : List Nat :=
  [83, 81, 76, 105, 116, 101, 32, 102, 111, 114, 109, 97, 116, 32, 51, 0]

/-- The fields of `FileHeader` the traversal consumes; the remaining fields
are unpacked and retained by the source but unused. -/
structure FileHeaderM where
  magic_bytes : List Nat
  page_size : Nat
  text_encoding : String
deriving DecidableEq

/-- Signed big-endian 32-bit encoding code at bytes 56..59 of the header. -/
def headerEncCode (d : List Nat) : Int :=
  signedBE 32 [d.getD 56 0, d.getD 57 0, d.getD 58 0, d.getD 59 0]

/-- Embedding of `FileHeader.__init__` (lines 55-85): `struct.unpack` of
exactly 100 bytes (a short read raises), then the `{1: utf8, 2: utf16-le,
3: utf16-be}` dictionary lookup on the encoding code (`KeyError` — `none` —
for any other value).  The magic bytes are stored but never compared to
anything. -/
def fileHeaderParse (d : List Nat) : Option FileHeaderM :=
  if d.length < 100 then none
  else
    if headerEncCode d = 1 then
      some ⟨d.take 16, (d.getD 16 0) * 256 + d.getD 17 0, "utf8"⟩
    else if headerEncCode d = 2 then
      some ⟨d.take 16, (d.getD 16 0) * 256 + d.getD 17 0, "utf16-le"⟩
    else if headerEncCode d = 3 then
      some ⟨d.take 16, (d.getD 16 0) * 256 + d.getD 17 0, "utf16-be"⟩
    else none

/-- A 100-byte header whose magic bytes are all wrong (zero) but whose
encoding code is 1. -/
def zeroHeaderEnc1 : List Nat :=
  List.replicate 59 0 ++ [1] ++ List.replicate 40 0

/-- C8 counterexample: a header with garbage magic bytes and encoding code 1
parses successfully — the code never checks the magic string, refuting
"fails with BadMagic whenever the leading 16 bytes are not the SQLite magic
string". -/
theorem bad_magic_accepted :
    (fileHeaderParse zeroHeaderEnc1).isSome = true ∧
      zeroHeaderEnc1.take 16 ≠ sqliteMagic := by
  refine ⟨by decide, by decide⟩

/-- C8 (amended): given 100 header bytes, parsing succeeds exactly when the
encoding code at bytes 56..59 is 1, 2 or 3 (any other code fails, the
spec's `BadEncoding`); the magic bytes are read and retained but never
validated, so success does not depend on them. -/
theorem file_header_accepts (d : List Nat) (hlen : 100 ≤ d.length) :
    ((fileHeaderParse d).isSome ↔
      (headerEncCode d = 1 ∨ headerEncCode d = 2 ∨ headerEncCode d = 3)) ∧
      (∀ h, fileHeaderParse d = some h → h.magic_bytes = d.take 16) := by
  rw [fileHeaderParse, if_neg (by omega)]
  constructor
  · split_ifs with h1 h2 h3
    · simp [h1]
    · simp [h2]
    · simp [h3]
    · simp [h1, h2, h3]
  · intro h hh
    split_ifs at hh with h1 h2 h3 <;> cases hh <;> rfl

/-- C8 amended-claim witness: the characterisation applied to the concrete
bad-magic header with encoding code 1. -/
theorem file_header_accepts_witness :
    ((fileHeaderParse zeroHeaderEnc1).isSome ↔
      (headerEncCode zeroHeaderEnc1 = 1 ∨ headerEncCode zeroHeaderEnc1 = 2 ∨
        headerEncCode zeroHeaderEnc1 = 3)) ∧
      (∀ h, fileHeaderParse zeroHeaderEnc1 = some h →
        h.magic_bytes = zeroHeaderEnc1.take 16) :=
  file_header_accepts zeroHeaderEnc1 (by decide)

end SqliteParser
